import Mathlib

/-!
Shallow embedding of the Medical-text-cleaner core (src/cleanser.py and
src/cleansing4.py).

Strings are modelled as lists of characters.  The Python string methods
lower and strip, the regex character classes for word characters and
whitespace, and the regex operations used by the source are modelled
character by character over the ASCII range.  A Counter from the Python
collections module is modelled as an insertion-ordered association list
(a new key is appended; an increment updates the entry in place), and a
Python dict as an insertion-ordered association list whose overwrite
keeps the key at its first-insertion position.  A KeyError escaping
bulk_replace is modelled by Option.none.

The compiled pattern of load_replacements is a word-boundary anchor,
then the alternation of all dict keys (each escaped, hence literal),
then another word-boundary anchor.  The sub method scans the lowercased
text left to right; at each position it first checks the leading
boundary, then tries the alternatives in key order, accepting the first
whose literal text is a prefix of the remaining input and whose trailing
boundary holds.  With an empty table the pattern degenerates to a pair
of adjacent boundary anchors around an empty group, which matches the
empty string at every word boundary; this is modelled by the single
empty alternative.
-/

namespace MedClean

/-- ASCII model of the regex word-character class (letters, digits, underscore). -/
def isWordChar (c : Char) : Bool := c.isAlphanum || c == '_'

/-- ASCII model of the regex whitespace class (the six ASCII whitespace characters). -/
def isWSChar (c : Char) : Bool :=
  c == ' ' || c == '\t' || c == '\n' || c == '\r' || c == '\x0b' || c == '\x0c'

/-- ASCII model of the Python string method lower, one character at a time:
the uppercase letters A-Z (codes 65-90) move down by 32, everything else
is unchanged. -/
def pyToLower (c : Char) : Char :=
  if 65 ≤ c.toNat ∧ c.toNat ≤ 90 then Char.ofNat (c.toNat + 32) else c

/-- The Python string method lower over a whole string. -/
def pyLower (l : List Char) : List Char := l.map pyToLower

/-- Removal of trailing whitespace, the second half of the Python string
method strip. -/
def dropTrailWS (l : List Char) : List Char :=
  (l.reverse.dropWhile isWSChar).reverse

/-- ASCII model of the Python string method strip with no arguments:
remove leading and trailing whitespace. -/
def pyStrip (l : List Char) : List Char :=
  dropTrailWS (l.dropWhile isWSChar)

/-- Model of a Counter from the Python collections module, as an
insertion-ordered association list. -/
abbrev Counter := List (List Char × Nat)

/-- Counter increment: update the entry in place, or append a fresh entry
with count 1. -/
def incr (cnt : Counter) (k : List Char) : Counter :=
  match cnt with
  | [] => [(k, 1)]
  | (k', n) :: rest => if k' = k then (k', n + 1) :: rest else (k', n) :: incr rest k

/-- Read a count from the counter (missing keys count 0, as in Counter). -/
def countOf (cnt : Counter) (k : List Char) : Nat :=
  match cnt with
  | [] => 0
  | (k', n) :: rest => if k' = k then n else countOf rest k

/-- The replacement dictionary, mapping shorthand to full form. -/
abbrev Table := List (List Char × List Char)

/-- Python dict lookup, with none modelling a KeyError. -/
def lookupTable (t : Table) (k : List Char) : Option (List Char) :=
  match t with
  | [] => none
  | (k', v) :: rest => if k' = k then some v else lookupTable rest k

/-- Python dict insertion: overwrite in place keeping the key at its
first-insertion position, or append a new entry. -/
def dictInsert (t : Table) (k v : List Char) : Table :=
  match t with
  | [] => [(k, v)]
  | (k', v') :: rest => if k' = k then (k', v) :: rest else (k', v') :: dictInsert rest k v

/-- Normalization of one dictionary field: strip, then lower. -/
def normField (s : List Char) : List Char := pyLower (pyStrip s)

/-- Model of load_replacements in src/cleanser.py, lines 8-11: the dict
comprehension over the already filtered rows, in row order, normalizing
both fields. -/
def load_replacements (rows : List (List Char × List Char)) : Table :=
  rows.foldl (fun t r => dictInsert t (normField r.1) (normField r.2)) []

/-- The dict keys, in dict (first-insertion) order. -/
def patternKeys (t : Table) : List (List Char) := t.map Prod.fst

/-- Alternatives of the compiled pattern built in load_replacements,
lines 12-14: the keys in order, except that joining zero keys yields the
single empty alternative of the degenerate empty-group pattern. -/
def patternAlts (t : Table) : List (List Char) :=
  match patternKeys t with
  | [] => [[]]
  | ks => ks

/-- Word-character status of the head of the remaining input (false at
the end of the string). -/
def headIsWord : List Char → Bool
  | [] => false
  | c :: _ => isWordChar c

/-- Whitespace status of the head of a string (false when empty). -/
def headIsWS : List Char → Bool
  | [] => false
  | c :: _ => isWSChar c

/-- The word-boundary assertion between the left context (prevW: whether
the preceding character is a word character, false at the string start)
and the remaining input. -/
def boundaryB (prevW : Bool) (rest : List Char) : Bool :=
  prevW != headIsWord rest

/-- Word-character status of the character just before the position that
follows a candidate match (the last character of the match, or the left
context when the match is empty). -/
def lastIsWordOr (prevW : Bool) (k : List Char) : Bool :=
  match k.getLast? with
  | some c => isWordChar c
  | none => prevW

/-- One alternative succeeds at this position: its literal text is a
prefix of the remaining input and the trailing boundary holds after it. -/
def keyMatches (prevW : Bool) (rest : List Char) (k : List Char) : Bool :=
  k.isPrefixOf rest && (lastIsWordOr prevW k != headIsWord (rest.drop k.length))

/-- First alternative (in pattern order) that succeeds at this position. -/
def firstKey (prevW : Bool) (rest : List Char) : List (List Char) → Option (List Char)
  | [] => none
  | k :: ks => if keyMatches prevW rest k then some k else firstKey prevW rest ks

/-- The whole pattern at one position: the leading boundary, then the
alternation. -/
def findMatch (alts : List (List Char)) (prevW : Bool) (rest : List Char) :
    Option (List Char) :=
  if boundaryB prevW rest then firstKey prevW rest alts else none

/-- The substitution scan of bulk_replace in src/cleanser.py, lines
22-27.  prevW is the word-character status of the previous character of
the original (lowercased) input; skip counts characters still covered by
the match just replaced (they are consumed without being copied and
without new match attempts, since the scan resumes at the end of a
match); on a match the counter is incremented and a failing dict lookup
gives none, modelling the KeyError.  After an empty match the
replacement is emitted and the scan advances one character, as the sub
method does. -/
def scanSub (alts : List (List Char)) (t : Table) :
    Bool → Nat → Counter → List Char → Option (List Char × Counter)
  | prevW, 0, cnt, [] =>
    (match findMatch alts prevW [] with
     | some k =>
       (match lookupTable t k with
        | none => none
        | some v => some (v, incr cnt k))
     | none => some ([], cnt))
  | _, _ + 1, cnt, [] => some ([], cnt)
  | _, skip + 1, cnt, c :: rs =>
    scanSub alts t (isWordChar c) skip cnt rs
  | prevW, 0, cnt, c :: rs =>
    (match findMatch alts prevW (c :: rs) with
     | none =>
       (scanSub alts t (isWordChar c) 0 cnt rs).map (fun p => (c :: p.1, p.2))
     | some k =>
       (match lookupTable t k with
        | none => none
        | some v =>
          match k with
          | [] =>
            (scanSub alts t (isWordChar c) 0 (incr cnt k) rs).map
              (fun p => (v ++ c :: p.1, p.2))
          | _ :: ktl =>
            (scanSub alts t (isWordChar c) ktl.length (incr cnt k) rs).map
              (fun p => (v ++ p.1, p.2))))

/-- Model of bulk_replace in src/cleanser.py, lines 22-27: the pattern
substitution applied to the lowercased text with the counter threaded
through; none models the KeyError raised by the dict lookup when the
matched text is not a key (reachable via the empty-table pattern). -/
def bulk_replace (text : List Char) (replacements : Table) (cnt : Counter) :
    Option (List Char × Counter) :=
  scanSub (patternAlts replacements) replacements false 0 cnt (pyLower text)

/-- The character class kept by the first substitution of apply_regex in
src/cleanser.py, line 18: word characters, whitespace, comma, forward
slash. -/
def keepChar (c : Char) : Bool :=
  isWordChar c || isWSChar c || c == ',' || c == '/'

/-- Collapse of every whitespace run to a single space (the second
substitution of apply_regex).  The flag records whether the current
position is inside a run. -/
def collapseGo : Bool → List Char → List Char
  | _, [] => []
  | inRun, c :: rest =>
    if isWSChar c then
      if inRun then collapseGo true rest
      else ' ' :: collapseGo true rest
    else c :: collapseGo false rest

/-- Collapse of whitespace runs from the start of the string. -/
def collapseWS (l : List Char) : List Char := collapseGo false l

/-- Model of apply_regex in src/cleanser.py, lines 17-20: strip the
disallowed symbols, collapse whitespace runs, then strip the ends. -/
def apply_regex (text : List Char) : List Char :=
  pyStrip (collapseWS (text.filter keepChar))

/-- The character class kept by apply_regex in src/cleansing4.py, line
27: word characters, whitespace, comma — and no forward slash. -/
def keepChar4 (c : Char) : Bool :=
  isWordChar c || isWSChar c || c == ','

namespace Cleansing4

/-- Model of apply_regex in src/cleansing4.py, lines 26-28: same shape as
the cleanser.py version but with the smaller character class. -/
def apply_regex (text : List Char) : List Char :=
  pyStrip (collapseWS (text.filter keepChar4))

end Cleansing4

/-- The per-row body of clean_notes in src/cleanser.py, threading the
shared counter through the rows in order; a KeyError escaping
bulk_replace aborts the run. -/
def cleanRows (replacements : Table) :
    List (List Char) → Counter → Option (List (List Char × List Char) × Counter)
  | [], cnt => some ([], cnt)
  | r :: rs, cnt =>
    match bulk_replace r replacements cnt with
    | none => none
    | some (rep, cnt') =>
      (cleanRows replacements rs cnt').map
        (fun p => ((r, apply_regex rep) :: p.1, p.2))

/-- Model of clean_notes in src/cleanser.py, lines 29-35: a fresh
counter, then for each row the pair of the original text and the
normalized replaced text, returned together with the final counter. -/
def clean_notes (rows : List (List Char)) (replacements : Table) :
    Option (List (List Char × List Char) × Counter) :=
  cleanRows replacements rows []

/-- Word-character status of the character preceding a position, given
the text consumed so far (p is the status before that text): the status
of the last character of that text, or p when it is empty. -/
def prevWFrom (p : Bool) : List Char → Bool
  | [] => p
  | c :: l => prevWFrom (isWordChar c) l

/-- The whole pattern succeeds for key k at position i of the lowercased
text L: the leading boundary holds there, the key is a literal prefix of
the rest, and the trailing boundary holds. -/
def matchesAtPos (k L : List Char) (i : Nat) : Bool :=
  boundaryB (prevWFrom false (L.take i)) (L.drop i) &&
  keyMatches (prevWFrom false (L.take i)) (L.drop i) k

/-- An ASCII uppercase letter (codes 65-90). -/
def isUpperA (c : Char) : Bool := 65 ≤ c.toNat && c.toNat ≤ 90

/-- Characters allowed in cleaned output: word characters, the space,
the comma, the forward slash. -/
def allowedOut (c : Char) : Bool :=
  isWordChar c || c == ' ' || c == ',' || c == '/'

/-- No two consecutive space characters anywhere in the string. -/
def noSpaceRun : List Char → Bool
  | a :: b :: t => !(a == ' ' && b == ' ') && noSpaceRun (b :: t)
  | _ => true

/-- Specification-side characterization of the duplicate-key policy of
load_replacements (later entries overwrite earlier ones): the normalized
full form of the last row whose normalized shorthand equals k. -/
def lastNormalizedValue : List (List Char × List Char) → List Char → Option (List Char)
  | [], _ => none
  | r :: rs, k =>
    match lastNormalizedValue rs k with
    | some v => some v
    | none => if normField r.1 = k then some (normField r.2) else none

/-- Every whitespace character of the string is a plain space. -/
def WSok (l : List Char) : Prop := ∀ c ∈ l, isWSChar c = true → c = ' '

/-- No two adjacent whitespace characters anywhere in the string. -/
def NoWSRun (l : List Char) : Prop :=
  l.Chain' (fun a b => ¬(isWSChar a = true ∧ isWSChar b = true))

/-! Basic lemmas about the counter, the dict, and positions. -/

theorem countOf_incr_self (cnt : Counter) (k : List Char) :
    countOf (incr cnt k) k = countOf cnt k + 1 := by
  induction cnt with
  | nil => simp [incr, countOf]
  | cons hd tl ih =>
    obtain ⟨k', n⟩ := hd
    by_cases h : k' = k <;> simp [incr, countOf, h, ih]

theorem countOf_incr_ne (cnt : Counter) {k k' : List Char} (h : k' ≠ k) :
    countOf (incr cnt k) k' = countOf cnt k' := by
  have hkk : ¬(k = k') := fun e => h e.symm
  induction cnt with
  | nil => simp [incr, countOf, hkk]
  | cons hd tl ih =>
    obtain ⟨k'', n⟩ := hd
    by_cases h2 : k'' = k
    · simp [incr, countOf, h2, hkk]
    · by_cases h3 : k'' = k'
      · simp [incr, countOf, h2, h3, h]
      · simp [incr, countOf, h2, h3, ih]

theorem patternKeys_cons (a b : List Char) (t : Table) :
    patternKeys ((a, b) :: t) = a :: patternKeys t := rfl

theorem lookupTable_dictInsert (t : Table) (k v k' : List Char) :
    lookupTable (dictInsert t k v) k' =
      if k = k' then some v else lookupTable t k' := by
  induction t with
  | nil => simp [dictInsert, lookupTable]
  | cons hd tl ih =>
    obtain ⟨k'', v''⟩ := hd
    by_cases h : k'' = k
    · by_cases h2 : k = k' <;> simp [dictInsert, lookupTable, h, h2]
    · by_cases h2 : k'' = k'
      · have h3 : ¬(k = k') := fun e => h (h2.trans e.symm)
        have h4 : ¬(k' = k) := fun e => h (h2.trans e)
        simp [dictInsert, lookupTable, h, h2, h3, h4]
      · simp [dictInsert, lookupTable, h, h2, ih]

theorem lookupTable_of_mem_keys {t : Table} {k : List Char}
    (h : k ∈ patternKeys t) : ∃ v, lookupTable t k = some v := by
  induction t with
  | nil => simp [patternKeys] at h
  | cons hd tl ih =>
    obtain ⟨k', v⟩ := hd
    by_cases h2 : k' = k
    · exact ⟨v, by simp [lookupTable, h2]⟩
    · rw [patternKeys_cons] at h
      rcases List.mem_cons.mp h with h3 | h3
      · exact absurd h3.symm h2
      · obtain ⟨v', hv'⟩ := ih h3
        exact ⟨v', by simp [lookupTable, h2, hv']⟩

theorem mem_of_lookupTable_some {t : Table} {k v : List Char}
    (h : lookupTable t k = some v) : (k, v) ∈ t := by
  induction t with
  | nil => simp [lookupTable] at h
  | cons hd tl ih =>
    obtain ⟨k', v'⟩ := hd
    by_cases h2 : k' = k
    · simp only [lookupTable, if_pos h2] at h
      subst h2
      obtain rfl : v' = v := Option.some.inj h
      exact List.mem_cons_self _ _
    · simp only [lookupTable, if_neg h2] at h
      exact List.mem_cons_of_mem _ (ih h)

theorem patternKeys_dictInsert (t : Table) (k v : List Char) :
    patternKeys (dictInsert t k v) =
      if k ∈ patternKeys t then patternKeys t else patternKeys t ++ [k] := by
  induction t with
  | nil => simp [dictInsert, patternKeys]
  | cons hd tl ih =>
    obtain ⟨k', v'⟩ := hd
    by_cases h : k' = k
    · subst h
      simp [dictInsert, patternKeys_cons]
    · have hne : k ≠ k' := fun e => h e.symm
      simp only [dictInsert, if_neg h, patternKeys_cons, ih]
      by_cases h2 : k ∈ patternKeys tl
      · rw [if_pos h2, if_pos (List.mem_cons_of_mem _ h2)]
      · rw [if_neg h2, if_neg (by simp [hne, h2]), List.cons_append]

theorem prevWFrom_nil (p : Bool) : prevWFrom p [] = p := rfl

theorem prevWFrom_cons (p : Bool) (c : Char) (l : List Char) :
    prevWFrom p (c :: l) = prevWFrom (isWordChar c) l := rfl

theorem prevWFrom_append (p : Bool) (a b : List Char) :
    prevWFrom p (a ++ b) = prevWFrom (prevWFrom p a) b := by
  induction a generalizing p with
  | nil => rfl
  | cons c t ih => rw [List.cons_append, prevWFrom_cons, prevWFrom_cons, ih]

theorem getLast?_cons_some (d : Char) (t : List Char) :
    ∃ x, (d :: t).getLast? = some x := by
  induction t generalizing d with
  | nil => exact ⟨d, rfl⟩
  | cons e t' ih =>
    obtain ⟨x, hx⟩ := ih e
    exact ⟨x, by rw [List.getLast?_cons_cons, hx]⟩

theorem lastIsWordOr_eq_prevWFrom (p : Bool) (l : List Char) :
    lastIsWordOr p l = prevWFrom p l := by
  induction l generalizing p with
  | nil => rfl
  | cons c t ih =>
    rw [prevWFrom_cons, ← ih]
    cases t with
    | nil => rfl
    | cons d t' =>
      obtain ⟨x, hx⟩ := getLast?_cons_some d t'
      unfold lastIsWordOr
      rw [List.getLast?_cons_cons, hx]

theorem firstKey_mem {p : Bool} {rest : List Char} {ks : List (List Char)}
    {k : List Char} (h : firstKey p rest ks = some k) : k ∈ ks := by
  induction ks with
  | nil => simp [firstKey] at h
  | cons k' ks' ih =>
    by_cases h2 : keyMatches p rest k' = true
    · simp [firstKey, h2] at h
      simp [h]
    · simp [firstKey, h2] at h
      exact List.mem_cons_of_mem _ (ih h)

theorem firstKey_matches {p : Bool} {rest : List Char} {ks : List (List Char)}
    {k : List Char} (h : firstKey p rest ks = some k) :
    keyMatches p rest k = true := by
  induction ks with
  | nil => simp [firstKey] at h
  | cons k' ks' ih =>
    by_cases h2 : keyMatches p rest k' = true
    · simp [firstKey, h2] at h
      subst h
      exact h2
    · simp [firstKey, h2] at h
      exact ih h

theorem findMatch_some {alts : List (List Char)} {p : Bool} {rest k : List Char}
    (h : findMatch alts p rest = some k) :
    boundaryB p rest = true ∧ keyMatches p rest k = true ∧ k ∈ alts := by
  unfold findMatch at h
  by_cases h2 : boundaryB p rest = true
  · rw [if_pos h2] at h
    exact ⟨h2, firstKey_matches h, firstKey_mem h⟩
  · rw [if_neg h2] at h
    exact absurd h (by simp)

theorem keyMatches_pre {p : Bool} {rest k : List Char}
    (h : keyMatches p rest k = true) : k <+: rest := by
  unfold keyMatches at h
  rw [Bool.and_eq_true] at h
  exact List.isPrefixOf_iff_prefix.mp h.1

/-! Lemmas about dictionary compilation, and the degenerate empty table. -/

theorem nodup_patternKeys_dictInsert {t : Table} (k v : List Char)
    (h : (patternKeys t).Nodup) : (patternKeys (dictInsert t k v)).Nodup := by
  rw [patternKeys_dictInsert]
  by_cases h2 : k ∈ patternKeys t
  · rw [if_pos h2]
    exact h
  · rw [if_neg h2]
    rw [List.nodup_append]
    refine ⟨h, List.nodup_singleton _, ?_⟩
    intro a ha hb
    rw [List.mem_singleton] at hb
    exact h2 (hb ▸ ha)

theorem load_foldl_nodup (rows : List (List Char × List Char)) (t : Table)
    (h : (patternKeys t).Nodup) :
    (patternKeys
      (rows.foldl (fun t r => dictInsert t (normField r.1) (normField r.2)) t)).Nodup := by
  induction rows generalizing t with
  | nil => exact h
  | cons r rs ih =>
    rw [List.foldl_cons]
    exact ih _ (nodup_patternKeys_dictInsert _ _ h)

theorem load_foldl_lookup (rows : List (List Char × List Char)) (t : Table)
    (k : List Char) :
    lookupTable
        (rows.foldl (fun t r => dictInsert t (normField r.1) (normField r.2)) t) k =
      match lastNormalizedValue rows k with
      | some v => some v
      | none => lookupTable t k := by
  induction rows generalizing t with
  | nil => rfl
  | cons r rs ih =>
    rw [List.foldl_cons, ih, lastNormalizedValue]
    cases lastNormalizedValue rs k with
    | some v => rfl
    | none =>
      rw [lookupTable_dictInsert]
      by_cases h : normField r.1 = k <;> simp [h]

theorem scanSub_empty_table (rest : List Char) (p : Bool) (cnt : Counter) :
    scanSub [[]] [] p 0 cnt rest =
      if (p || rest.any isWordChar) then none else some (rest, cnt) := by
  induction rest generalizing p with
  | nil =>
    cases p <;>
      simp [scanSub, findMatch, boundaryB, headIsWord, firstKey, keyMatches,
        lastIsWordOr, lookupTable, List.isPrefixOf]
  | cons c rs ih =>
    cases hw : isWordChar c <;> cases p <;>
      simp [scanSub, findMatch, boundaryB, headIsWord, firstKey, keyMatches,
        lastIsWordOr, lookupTable, List.isPrefixOf, hw, ih]
    split <;> simp

/-! Claim theorems on concrete scenarios, dictionary compilation, and
determinism. -/

/-- C1: for the dictionary mapping hr to heart rate and c/o to complains
of, bulk_replace on the given note produces the expected replaced text
with the counter at one c/o and one hr, and apply_regex on that result
strips the exclamation mark. -/
theorem c1_scenario :
    bulk_replace "Pt c/o elevated HR today!".toList
        [("hr".toList, "heart rate".toList), ("c/o".toList, "complains of".toList)]
        [] =
      some ("pt complains of elevated heart rate today!".toList,
        [("c/o".toList, 1), ("hr".toList, 1)]) ∧
    apply_regex "pt complains of elevated heart rate today!".toList =
      "pt complains of elevated heart rate today".toList := by
  decide

/-- C2 counterexample: the dictionary maps the plus sign to the word
plus; the input contains the key exactly once, surrounded on both sides
by a non-word character (spaces), yet bulk_replace replaces nothing and
counts nothing — the final counter is still empty and the text is
unchanged, because a word-boundary anchor cannot hold next to a key
whose edge characters are not word characters. -/
theorem c2_counterexample :
    bulk_replace "a + b".toList [("+".toList, "plus".toList)] [] =
      some ("a + b".toList, ([] : Counter)) := by
  decide

/-- C4 counterexample: with an empty dictionary and the spec scenario
input, the pipeline does not return the normalized input with an empty
counter — the degenerate pattern matches the empty string at the first
word boundary, the dict lookup of the empty string raises KeyError, and
clean_notes propagates it (none). -/
theorem c4_counterexample :
    clean_notes ["no shorthand here".toList] [] = none := by
  decide

/-- C4 amended: with an empty dictionary the compiled pattern matches
the empty string at every word boundary, so bulk_replace raises KeyError
(none) on any input containing a word character, and returns the
lowercased input unchanged with the counter untouched on inputs without
word characters. -/
theorem c4_amended (text : List Char) (cnt : Counter) :
    bulk_replace text [] cnt =
      if (pyLower text).any isWordChar then none
      else some (pyLower text, cnt) := by
  unfold bulk_replace
  rw [show patternAlts [] = [[]] from rfl, scanSub_empty_table]
  simp

/-- C5: dictionary compilation retains exactly one mapping per key
(distinct keys), the retained value for every key is the one of the last
row whose normalized shorthand equals that key, and the duplicate bid
example loads to the two-times-a-day mapping. -/
theorem c5_duplicate_last_wins :
    (∀ rows : List (List Char × List Char),
      (patternKeys (load_replacements rows)).Nodup ∧
      ∀ k, lookupTable (load_replacements rows) k = lastNormalizedValue rows k) ∧
    load_replacements [("bid".toList, "twice daily".toList),
        ("bid".toList, "two times a day".toList)] =
      [("bid".toList, "two times a day".toList)] := by
  refine ⟨fun rows => ⟨load_foldl_nodup rows [] (by simp [patternKeys]), fun k => ?_⟩, by decide⟩
  rw [load_replacements, load_foldl_lookup]
  cases lastNormalizedValue rows k with
  | some v => rfl
  | none => rfl

/-- C6 counterexample: with the empty dictionary, the text abc contains
no whole-token occurrence of any key (there are no keys), yet
bulk_replace does not return the lowercase text with the counter
unchanged — the degenerate pattern matches the empty string at the first
word boundary and the dict lookup raises KeyError (none). -/
theorem c6_counterexample :
    bulk_replace "abc".toList [] [] = none := by
  decide

/-- C8: the pipeline is deterministic — two runs of clean_notes on the
same rows and the same dictionary give the same cleaned outputs and the
same final counts (the counter is created fresh inside clean_notes, so
no state leaks between runs). -/
theorem c8_deterministic (rows : List (List Char)) (replacements : Table)
    (r1 r2 : Option (List (List Char × List Char) × Counter))
    (h1 : clean_notes rows replacements = r1)
    (h2 : clean_notes rows replacements = r2) : r1 = r2 :=
  h1.symm.trans h2

/-- C8 witness: the determinism theorem applied to a concrete dictionary
and row. -/
theorem c8_deterministic_witness :
    clean_notes ["Pt HR!".toList] [("hr".toList, "heart rate".toList)] =
      clean_notes ["Pt HR!".toList] [("hr".toList, "heart rate".toList)] :=
  c8_deterministic _ _ _ _ rfl rfl

/-- C9 counterexample: on the input c/o the two normalizers disagree —
the cleansing4.py version deletes the forward slash while the
cleanser.py version keeps it — refuting the claim that they compute the
same function with the slash retained. -/
theorem c9_counterexample :
    Cleansing4.apply_regex "c/o".toList = "co".toList ∧
    apply_regex "c/o".toList = "c/o".toList ∧
    Cleansing4.apply_regex "c/o".toList ≠ apply_regex "c/o".toList := by
  refine ⟨by decide, by decide, by decide⟩

/-- C9 amended: the two normalizers agree on every string containing no
forward slash; they differ exactly in that the cleansing4.py character
class also removes forward slashes. -/
theorem c9_amended (t : List Char) (h : '/' ∉ t) :
    Cleansing4.apply_regex t = apply_regex t := by
  unfold Cleansing4.apply_regex apply_regex
  have : t.filter keepChar4 = t.filter keepChar := by
    apply List.filter_congr
    intro c hc
    have hne : ¬(c = '/') := fun e => h (e ▸ hc)
    have hb : (c == '/') = false := by simp [hne]
    simp [keepChar, keepChar4, hb]
  rw [this]

/-- C9 witness: the agreement theorem applied to a slash-free string. -/
theorem c9_amended_witness :
    Cleansing4.apply_regex "a  b,c!".toList = apply_regex "a  b,c!".toList :=
  c9_amended _ (by decide)

/-! Machinery about the substitution scan: elimination of skip states,
copying through match-free regions, and count preservation for keys that
are never selected. -/

theorem scanSub_skip (alts : List (List Char)) (t : Table) (s : Nat) :
    ∀ (rest : List Char) (p : Bool) (cnt : Counter), s ≤ rest.length →
    scanSub alts t p s cnt rest =
      scanSub alts t (prevWFrom p (rest.take s)) 0 cnt (rest.drop s) := by
  induction s with
  | zero => intro rest p cnt _; rfl
  | succ s ih =>
    intro rest p cnt h
    cases rest with
    | nil => exact absurd h (by simp)
    | cons c rs =>
      have h2 : s ≤ rs.length := by simpa using h
      show scanSub alts t (isWordChar c) s cnt rs = _
      rw [ih rs (isWordChar c) cnt h2]
      rfl

theorem scanSub_nomatch (alts : List (List Char)) (t : Table) :
    ∀ (rest : List Char) (p : Bool) (cnt : Counter),
    (∀ C D, rest = C ++ D → findMatch alts (prevWFrom p C) D = none) →
    scanSub alts t p 0 cnt rest = some (rest, cnt) := by
  intro rest
  induction rest with
  | nil =>
    intro p cnt h
    have h0 := h [] [] rfl
    rw [prevWFrom_nil] at h0
    simp [scanSub, h0]
  | cons c rs ih =>
    intro p cnt h
    have h0 := h [] (c :: rs) rfl
    rw [prevWFrom_nil] at h0
    have h1 : ∀ C D, rs = C ++ D →
        findMatch alts (prevWFrom (isWordChar c) C) D = none := by
      intro C D hCD
      have := h (c :: C) D (by rw [hCD, List.cons_append])
      rwa [prevWFrom_cons] at this
    simp [scanSub, h0, ih (isWordChar c) cnt h1]

theorem scanSub_append_nomatch (alts : List (List Char)) (t : Table) :
    ∀ (A : List Char) (p : Bool) (cnt : Counter) (R : List Char),
    (∀ C D, A = C ++ D → D ≠ [] → findMatch alts (prevWFrom p C) (D ++ R) = none) →
    scanSub alts t p 0 cnt (A ++ R) =
      (scanSub alts t (prevWFrom p A) 0 cnt R).map (fun q => (A ++ q.1, q.2)) := by
  intro A
  induction A with
  | nil =>
    intro p cnt R _
    rw [prevWFrom_nil, List.nil_append]
    cases scanSub alts t p 0 cnt R <;> rfl
  | cons c A' ih =>
    intro p cnt R h
    have h0 : findMatch alts p (c :: (A' ++ R)) = none := by
      have := h [] (c :: A') rfl (by simp)
      rwa [prevWFrom_nil, List.cons_append] at this
    have h1 : ∀ C D, A' = C ++ D → D ≠ [] →
        findMatch alts (prevWFrom (isWordChar c) C) (D ++ R) = none := by
      intro C D hCD hD
      have := h (c :: C) D (by rw [hCD, List.cons_append]) hD
      rwa [prevWFrom_cons] at this
    rw [List.cons_append]
    simp only [scanSub, h0]
    rw [ih (isWordChar c) cnt R h1, prevWFrom_cons]
    cases scanSub alts t (prevWFrom (isWordChar c) A') 0 cnt R <;> rfl

theorem scanSub_count_pres_nil (alts : List (List Char)) (t : Table)
    {k : List Char} {p : Bool} {cnt : Counter} {out : List Char} {ct : Counter}
    (h : findMatch alts p [] ≠ some k)
    (hs : scanSub alts t p 0 cnt [] = some (out, ct)) :
    countOf ct k = countOf cnt k := by
  cases hm : findMatch alts p [] with
  | none =>
    simp [scanSub, hm] at hs
    rw [hs.2]
  | some k' =>
    have hne : k' ≠ k := fun e => h (e ▸ hm)
    cases hl : lookupTable t k' with
    | none => simp [scanSub, hm, hl] at hs
    | some v =>
      simp [scanSub, hm, hl] at hs
      rw [← hs.2, countOf_incr_ne cnt (Ne.symm hne)]

theorem scanSub_count_pres (alts : List (List Char)) (t : Table) (k : List Char) :
    ∀ (n : Nat) (rest : List Char) (p : Bool) (cnt : Counter), rest.length ≤ n →
    (∀ C D, rest = C ++ D → findMatch alts (prevWFrom p C) D ≠ some k) →
    ∀ out ct, scanSub alts t p 0 cnt rest = some (out, ct) →
    countOf ct k = countOf cnt k := by
  intro n
  induction n with
  | zero =>
    intro rest p cnt hlen h out ct hs
    obtain rfl : rest = [] := List.length_eq_zero.mp (Nat.le_zero.mp hlen)
    have h0 := h [] [] rfl
    rw [prevWFrom_nil] at h0
    exact scanSub_count_pres_nil alts t h0 hs
  | succ n ih =>
    intro rest p cnt hlen h out ct hs
    cases rest with
    | nil =>
      have h0 := h [] [] rfl
      rw [prevWFrom_nil] at h0
      exact scanSub_count_pres_nil alts t h0 hs
    | cons c rs =>
      have hlen' : rs.length ≤ n := by simpa using hlen
      have hshift : ∀ C D, rs = C ++ D →
          findMatch alts (prevWFrom (isWordChar c) C) D ≠ some k := by
        intro C D hCD
        have := h (c :: C) D (by rw [hCD, List.cons_append])
        rwa [prevWFrom_cons] at this
      cases hm : findMatch alts p (c :: rs) with
      | none =>
        simp only [scanSub, hm] at hs
        obtain ⟨⟨out', ct'⟩, hin, heq⟩ := Option.map_eq_some'.mp hs
        obtain ⟨-, rfl⟩ : c :: out' = out ∧ ct' = ct := Prod.mk.injEq .. ▸ Prod.mk.inj heq
        exact ih rs (isWordChar c) cnt hlen' hshift out' ct' hin
      | some k' =>
        have hne : k' ≠ k := by
          have := h [] (c :: rs) rfl
          rw [prevWFrom_nil] at this
          exact fun e => this (e ▸ hm)
        cases hl : lookupTable t k' with
        | none => simp [scanSub, hm, hl] at hs
        | some v =>
          cases k' with
          | nil =>
            simp only [scanSub, hm, hl] at hs
            obtain ⟨⟨out', ct'⟩, hin, heq⟩ := Option.map_eq_some'.mp hs
            obtain ⟨-, rfl⟩ : v ++ c :: out' = out ∧ ct' = ct :=
              Prod.mk.injEq .. ▸ Prod.mk.inj heq
            have hshift2 : ∀ C D, rs = C ++ D →
                findMatch alts (prevWFrom (isWordChar c) C) D ≠ some k := hshift
            have := ih rs (isWordChar c) (incr cnt []) hlen' hshift2 out' ct' hin
            rw [this, countOf_incr_ne cnt (Ne.symm hne)]
          | cons kh ktl =>
            simp only [scanSub, hm, hl] at hs
            obtain ⟨⟨out', ct'⟩, hin, heq⟩ := Option.map_eq_some'.mp hs
            obtain ⟨-, rfl⟩ : v ++ out' = out ∧ ct' = ct :=
              Prod.mk.injEq .. ▸ Prod.mk.inj heq
            have hpre : (kh :: ktl) <+: (c :: rs) :=
              keyMatches_pre (findMatch_some hm).2.1
            obtain ⟨rfl, hpre'⟩ := List.cons_prefix_cons.mp hpre
            have hlen2 : ktl.length ≤ rs.length := List.IsPrefix.length_le hpre'
            obtain ⟨D0, hD0⟩ := hpre'
            rw [scanSub_skip alts t ktl.length rs (isWordChar kh) (incr cnt (kh :: ktl))
              hlen2] at hin
            rw [← hD0, List.take_left, List.drop_left] at hin
            have hlen3 : D0.length ≤ n := by
              have : rs.length = ktl.length + D0.length := by
                rw [← hD0, List.length_append]
              omega
            have hshift3 : ∀ C D, D0 = C ++ D →
                findMatch alts (prevWFrom (prevWFrom (isWordChar kh) ktl) C) D ≠
                  some k := by
              intro C D hCD
              have hsplit : kh :: rs = (kh :: (ktl ++ C)) ++ D := by
                rw [← hD0, hCD]
                simp
              have := h (kh :: (ktl ++ C)) D hsplit
              rwa [prevWFrom_cons, prevWFrom_append] at this
            have := ih D0 (prevWFrom (isWordChar kh) ktl) (incr cnt (kh :: ktl))
              hlen3 hshift3 out' ct' hin
            rw [this, countOf_incr_ne cnt (Ne.symm hne)]

theorem matchesAtPos_of_findMatch {alts : List (List Char)} {L C D k : List Char}
    (hCD : L = C ++ D) (hm : findMatch alts (prevWFrom false C) D = some k) :
    matchesAtPos k L C.length = true := by
  obtain ⟨h1, h2, -⟩ := findMatch_some hm
  unfold matchesAtPos
  rw [hCD, List.take_left, List.drop_left, h1, h2]
  rfl

theorem patternAlts_of_ne {t : Table} (h : t ≠ []) :
    patternAlts t = patternKeys t := by
  cases t with
  | nil => exact absurd rfl h
  | cons hd tl => rfl

/-! The remaining claim theorems about whole-token matching. -/

/-- C3: only whole-token matches are counted — a key with no
boundary-delimited occurrence anywhere in the lowercased text (for
instance one occurring only as a strict substring of a larger token) is
never counted: any successful run of bulk_replace leaves its count
unchanged, whatever the dictionary. -/
theorem c3_no_partial_token_count (replacements : Table) (text k : List Char)
    (cnt : Counter)
    (hocc : ∀ i, i ≤ (pyLower text).length →
      matchesAtPos k (pyLower text) i = false) :
    ∀ out ct, bulk_replace text replacements cnt = some (out, ct) →
      countOf ct k = countOf cnt k := by
  intro out ct hs
  unfold bulk_replace at hs
  refine scanSub_count_pres (patternAlts replacements) replacements k
    (pyLower text).length (pyLower text) false cnt le_rfl ?_ out ct hs
  intro C D hCD hm
  have hp : matchesAtPos k (pyLower text) C.length = true :=
    matchesAtPos_of_findMatch hCD hm
  have hlen : C.length ≤ (pyLower text).length := by
    rw [hCD, List.length_append]
    omega
  rw [hocc C.length hlen] at hp
  exact Bool.false_ne_true hp

/-- C3 witness: in the text hrx and bhr the key hr occurs only inside
larger tokens, so a run over it preserves the count of hr (here at its
initial value 5). -/
theorem c3_witness :
    countOf [("hr".toList, 5)] "hr".toList =
      countOf [("hr".toList, 5)] "hr".toList :=
  c3_no_partial_token_count [("hr".toList, "heart rate".toList)]
    "hrx and bhr".toList "hr".toList [("hr".toList, 5)] (by decide)
    "hrx and bhr".toList [("hr".toList, 5)] (by decide)

/-- C6 amended: for every NON-EMPTY dictionary, a text with no
whole-token occurrence of any key passes through bulk_replace unchanged
apart from lowercasing, with the counter untouched.  Non-emptiness is
needed: with the empty dictionary the degenerate pattern makes
bulk_replace raise KeyError on any text containing a word character (see
the counterexample). -/
theorem c6_amended (replacements : Table) (text : List Char) (cnt : Counter)
    (hne : replacements ≠ [])
    (hocc : ∀ i, i ≤ (pyLower text).length → ∀ k, k ∈ patternKeys replacements →
      matchesAtPos k (pyLower text) i = false) :
    bulk_replace text replacements cnt = some (pyLower text, cnt) := by
  unfold bulk_replace
  apply scanSub_nomatch
  intro C D hCD
  cases hm : findMatch (patternAlts replacements) (prevWFrom false C) D with
  | none => rfl
  | some k =>
    obtain ⟨-, -, hmem⟩ := findMatch_some hm
    rw [patternAlts_of_ne hne] at hmem
    have hp := matchesAtPos_of_findMatch hCD hm
    have hlen : C.length ≤ (pyLower text).length := by
      rw [hCD, List.length_append]
      omega
    rw [hocc C.length hlen k hmem] at hp
    exact absurd hp (by simp)

/-- C6 witness: a dictionary with the key hr and a text without it. -/
theorem c6_amended_witness :
    bulk_replace "nothing here".toList [("hr".toList, "heart rate".toList)] [] =
      some (pyLower "nothing here".toList, []) :=
  c6_amended [("hr".toList, "heart rate".toList)] "nothing here".toList []
    (by decide) (by decide)

/-- C2 amended: for a ONE-ENTRY dictionary whose key is non-empty and
begins and ends with word characters, a text whose lowercase form
contains the key exactly once, that occurrence bordered on each side by
a non-word character or a string edge, gets exactly that occurrence
replaced by the full form; the count of the key rises by exactly one and
every other count is unchanged.  Keys with non-word edge characters can
never match (see the counterexample), and with several entries another
key can consume the occurrence, so the claim is restricted to this
setting. -/
theorem c2_amended (k v A B text : List Char) (cnt : Counter)
    (hk : k ≠ [])
    (hhead : headIsWord k = true)
    (hlast : lastIsWordOr false k = true)
    (hA : prevWFrom false A = false)
    (hB : headIsWord B = false)
    (hL : pyLower text = A ++ k ++ B)
    (huniq : ∀ i, i ≤ (pyLower text).length →
      k.isPrefixOf ((pyLower text).drop i) = true → i = A.length) :
    bulk_replace text [(k, v)] cnt = some (A ++ v ++ B, incr cnt k) ∧
    countOf (incr cnt k) k = countOf cnt k + 1 ∧
    ∀ k', k' ≠ k → countOf (incr cnt k) k' = countOf cnt k' := by
  refine ⟨?_, countOf_incr_self cnt k, fun k' h => countOf_incr_ne cnt h⟩
  unfold bulk_replace
  rw [hL] at huniq ⊢
  rw [List.append_assoc] at huniq ⊢
  rw [show patternAlts [(k, v)] = [k] from rfl]
  have hnomatchA : ∀ C D, A = C ++ D → D ≠ [] →
      findMatch [k] (prevWFrom false C) (D ++ (k ++ B)) = none := by
    intro C D hCD hD
    cases hm : findMatch [k] (prevWFrom false C) (D ++ (k ++ B)) with
    | none => rfl
    | some k0 =>
      obtain ⟨-, hkm, hmem⟩ := findMatch_some hm
      rw [List.mem_singleton] at hmem
      subst hmem
      have hpre : k0 <+: D ++ (k0 ++ B) := keyMatches_pre hkm
      have hdrop : (A ++ (k0 ++ B)).drop C.length = D ++ (k0 ++ B) := by
        rw [hCD, List.append_assoc, List.drop_left]
      have hile : C.length ≤ (A ++ (k0 ++ B)).length := by
        rw [hCD]
        simp [List.length_append]
      have huq := huniq C.length hile
        (by rw [hdrop]; exact List.isPrefixOf_iff_prefix.mpr hpre)
      rw [hCD, List.length_append] at huq
      have hD0 : D.length = 0 := by omega
      exact absurd (List.length_eq_zero.mp hD0) hD
  rw [scanSub_append_nomatch [k] [(k, v)] A false cnt (k ++ B) hnomatchA, hA]
  cases k with
  | nil => exact absurd rfl hk
  | cons kh ktl =>
    have hwkh : isWordChar kh = true := hhead
    have hfm : findMatch [kh :: ktl] false (kh :: (ktl ++ B)) = some (kh :: ktl) := by
      have hb : boundaryB false (kh :: (ktl ++ B)) = true := by
        simp [boundaryB, headIsWord, hwkh]
      have hkm : keyMatches false (kh :: (ktl ++ B)) (kh :: ktl) = true := by
        unfold keyMatches
        rw [show kh :: (ktl ++ B) = (kh :: ktl) ++ B from rfl, List.drop_left, hlast, hB]
        simp [ List.isPrefixOf_iff_prefix, List.prefix_append]
      simp [findMatch, firstKey, hb, hkm]
    have hlook : lookupTable [(kh :: ktl, v)] (kh :: ktl) = some v := by
      simp [lookupTable]
    rw [show (kh :: ktl) ++ B = kh :: (ktl ++ B) from rfl]
    simp only [scanSub, hfm, hlook]
    have hsk : ktl.length ≤ (ktl ++ B).length := by
      rw [List.length_append]
      omega
    rw [scanSub_skip [kh :: ktl] [(kh :: ktl, v)] ktl.length (ktl ++ B)
      (isWordChar kh) (incr cnt (kh :: ktl)) hsk]
    rw [List.take_left, List.drop_left]
    have hpw : prevWFrom (isWordChar kh) ktl = true := by
      rw [← prevWFrom_cons, ← lastIsWordOr_eq_prevWFrom]
      exact hlast
    rw [hpw]
    have hnomatchB : ∀ C D, B = C ++ D →
        findMatch [kh :: ktl] (prevWFrom true C) D = none := by
      intro C D hCD
      cases hm2 : findMatch [kh :: ktl] (prevWFrom true C) D with
      | none => rfl
      | some k0 =>
        obtain ⟨-, hkm2, hmem2⟩ := findMatch_some hm2
        rw [List.mem_singleton] at hmem2
        subst hmem2
        have hpre2 : (kh :: ktl) <+: D := keyMatches_pre hkm2
        have hsplit : A ++ ((kh :: ktl) ++ B) = (A ++ ((kh :: ktl) ++ C)) ++ D := by
          rw [hCD]
          simp [List.append_assoc]
        have hdrop2 :
            (A ++ ((kh :: ktl) ++ B)).drop (A ++ ((kh :: ktl) ++ C)).length = D := by
          rw [hsplit, List.drop_left]
        have hile2 :
            (A ++ ((kh :: ktl) ++ C)).length ≤ (A ++ ((kh :: ktl) ++ B)).length := by
          rw [hsplit]
          simp [List.length_append]
        have hpp : (kh :: ktl).isPrefixOf
            ((A ++ ((kh :: ktl) ++ B)).drop (A ++ ((kh :: ktl) ++ C)).length) = true := by
          rw [hdrop2]
          exact List.isPrefixOf_iff_prefix.mpr hpre2
        have hq := huniq (A ++ ((kh :: ktl) ++ C)).length hile2 hpp
        simp [List.length_append] at hq
    rw [scanSub_nomatch [kh :: ktl] [(kh :: ktl, v)] B true (incr cnt (kh :: ktl))
      hnomatchB]
    simp [List.append_assoc]

/-- C2 witness: the singleton hr dictionary on a note with a single
whole-token HR. -/
theorem c2_amended_witness :
    bulk_replace "Pt HR!".toList [("hr".toList, "heart rate".toList)] [] =
      some ("pt ".toList ++ "heart rate".toList ++ "!".toList,
        incr [] "hr".toList) :=
  (c2_amended "hr".toList "heart rate".toList "pt ".toList "!".toList
    "Pt HR!".toList [] (by decide) (by decide) (by decide) (by decide)
    (by decide) (by decide) (by decide)).1

/-! Machinery about the normalizer: structure of the collapse output,
fixpoints, and preservation through the strip. -/

theorem headIsWS_collapseGo_true (l : List Char) :
    headIsWS (collapseGo true l) = false := by
  induction l with
  | nil => rfl
  | cons c rest ih =>
    cases hws : isWSChar c with
    | true => simp [collapseGo, hws, ih]
    | false => simp [collapseGo, hws, headIsWS]

theorem mem_collapseGo {x : Char} :
    ∀ (b : Bool) (l : List Char), x ∈ collapseGo b l →
      x = ' ' ∨ (x ∈ l ∧ isWSChar x = false) := by
  intro b l
  induction l generalizing b with
  | nil => intro h; simp [collapseGo] at h
  | cons c rest ih =>
    intro h
    cases hws : isWSChar c with
    | true =>
      cases b with
      | true =>
        rw [show collapseGo true (c :: rest) = collapseGo true rest from by
          simp [collapseGo, hws]] at h
        rcases ih true h with h2 | h2
        · exact Or.inl h2
        · exact Or.inr ⟨List.mem_cons_of_mem _ h2.1, h2.2⟩
      | false =>
        rw [show collapseGo false (c :: rest) = ' ' :: collapseGo true rest from by
          simp [collapseGo, hws]] at h
        rcases List.mem_cons.mp h with h2 | h2
        · exact Or.inl h2
        · rcases ih true h2 with h3 | h3
          · exact Or.inl h3
          · exact Or.inr ⟨List.mem_cons_of_mem _ h3.1, h3.2⟩
    | false =>
      rw [show collapseGo b (c :: rest) = c :: collapseGo false rest from by
        cases b <;> simp [collapseGo, hws]] at h
      rcases List.mem_cons.mp h with h2 | h2
      · exact Or.inr ⟨h2 ▸ List.mem_cons_self _ _, h2 ▸ hws⟩
      · rcases ih false h2 with h3 | h3
        · exact Or.inl h3
        · exact Or.inr ⟨List.mem_cons_of_mem _ h3.1, h3.2⟩

theorem WSok_collapseGo (b : Bool) (l : List Char) : WSok (collapseGo b l) := by
  intro x hx hws
  rcases mem_collapseGo b l hx with h | h
  · exact h
  · exact absurd hws (by simp [h.2])

theorem headIsWS_some {l : List Char} {y : Char} (h : headIsWS l = false)
    (hy : l.head? = some y) : isWSChar y = false := by
  cases l with
  | nil => simp at hy
  | cons a t =>
    obtain rfl : a = y := by simpa using hy
    exact h

theorem noWSRun_collapseGo (b : Bool) (l : List Char) : NoWSRun (collapseGo b l) := by
  induction l generalizing b with
  | nil => simp [collapseGo, NoWSRun]
  | cons c rest ih =>
    cases hws : isWSChar c with
    | true =>
      cases b with
      | true =>
        rw [show collapseGo true (c :: rest) = collapseGo true rest from by
          simp [collapseGo, hws]]
        exact ih true
      | false =>
        rw [show collapseGo false (c :: rest) = ' ' :: collapseGo true rest from by
          simp [collapseGo, hws]]
        refine List.chain'_cons'.mpr ⟨?_, ih true⟩
        intro y hy
        have := headIsWS_some (headIsWS_collapseGo_true rest) hy
        intro hc
        rw [this] at hc
        exact absurd hc.2 (by simp)
    | false =>
      rw [show collapseGo b (c :: rest) = c :: collapseGo false rest from by
        cases b <;> simp [collapseGo, hws]]
      refine List.chain'_cons'.mpr ⟨?_, ih false⟩
      intro y _ hc
      rw [hws] at hc
      exact absurd hc.1 (by simp)

theorem collapseGo_fix : ∀ (l : List Char) (b : Bool), WSok l → NoWSRun l →
    (b = false ∨ headIsWS l = false) → collapseGo b l = l := by
  intro l
  induction l with
  | nil => intro b _ _ _; rfl
  | cons c rest ih =>
    intro b hws hchain hb
    have hrest_ws : WSok rest := fun x hx h => hws x (List.mem_cons_of_mem _ hx) h
    have hrest_chain : NoWSRun rest := (List.chain'_cons'.mp hchain).2
    cases hcw : isWSChar c with
    | false =>
      rw [show collapseGo b (c :: rest) = c :: collapseGo false rest from by
        cases b <;> simp [collapseGo, hcw]]
      rw [ih false hrest_ws hrest_chain (Or.inl rfl)]
    | true =>
      have hb' : b = false := by
        rcases hb with h | h
        · exact h
        · rw [show headIsWS (c :: rest) = isWSChar c from rfl, hcw] at h
          exact absurd h (by simp)
      subst hb'
      have hc : c = ' ' := hws c (List.mem_cons_self _ _) hcw
      have hhead : headIsWS rest = false := by
        cases rest with
        | nil => rfl
        | cons d t =>
          have hcd := (List.chain'_cons'.mp hchain).1 d rfl
          show isWSChar d = false
          cases hd : isWSChar d with
          | false => rfl
          | true => exact absurd ⟨hcw, hd⟩ hcd
      rw [show collapseGo false (c :: rest) = ' ' :: collapseGo true rest from by
        simp [collapseGo, hcw]]
      rw [ih true hrest_ws hrest_chain (Or.inr hhead), hc]

theorem headIsWS_dropWhile (l : List Char) :
    headIsWS (l.dropWhile isWSChar) = false := by
  induction l with
  | nil => rfl
  | cons c rest ih =>
    cases h : isWSChar c with
    | true => simpa [List.dropWhile_cons, h] using ih
    | false => simp [List.dropWhile_cons, h, headIsWS]

theorem dropTrailWS_pre (l : List Char) : dropTrailWS l <+: l := by
  unfold dropTrailWS
  rw [← List.reverse_suffix, List.reverse_reverse]
  exact List.dropWhile_suffix _

theorem headIsWS_of_pre {l l' : List Char} (hp : l' <+: l)
    (h : headIsWS l = false) : headIsWS l' = false := by
  cases l' with
  | nil => rfl
  | cons c t =>
    obtain ⟨s, hs⟩ := hp
    rw [← hs] at h
    exact h

theorem headIsWS_pyStrip (l : List Char) : headIsWS (pyStrip l) = false :=
  headIsWS_of_pre (dropTrailWS_pre _) (headIsWS_dropWhile l)

theorem headIsWS_pyStrip_reverse (l : List Char) :
    headIsWS (pyStrip l).reverse = false := by
  unfold pyStrip dropTrailWS
  rw [List.reverse_reverse]
  exact headIsWS_dropWhile _

theorem dropWhile_of_headNW {l : List Char} (h : headIsWS l = false) :
    l.dropWhile isWSChar = l := by
  cases l with
  | nil => rfl
  | cons c t =>
    rw [List.dropWhile_cons, if_neg (by simp [show isWSChar c = false from h])]

theorem pyStrip_fix {l : List Char} (h1 : headIsWS l = false)
    (h2 : headIsWS l.reverse = false) : pyStrip l = l := by
  unfold pyStrip dropTrailWS
  rw [dropWhile_of_headNW h1, dropWhile_of_headNW h2, List.reverse_reverse]

theorem mem_dropTrailWS {x : Char} {l : List Char} (h : x ∈ dropTrailWS l) :
    x ∈ l := by
  unfold dropTrailWS at h
  rw [List.mem_reverse] at h
  have := ((List.dropWhile_suffix isWSChar).sublist).subset h
  rwa [List.mem_reverse] at this

theorem mem_pyStrip {x : Char} {l : List Char} (h : x ∈ pyStrip l) : x ∈ l := by
  unfold pyStrip at h
  exact ((List.dropWhile_suffix isWSChar).sublist).subset (mem_dropTrailWS h)

theorem noWSRun_reverse {l : List Char} (h : NoWSRun l) : NoWSRun l.reverse := by
  unfold NoWSRun at h ⊢
  rw [List.chain'_reverse]
  exact h.imp (fun _ _ hab hc => hab ⟨hc.2, hc.1⟩)

theorem noWSRun_pyStrip {l : List Char} (h : NoWSRun l) : NoWSRun (pyStrip l) := by
  unfold pyStrip dropTrailWS
  have h1 : NoWSRun (l.dropWhile isWSChar) :=
    List.Chain'.suffix h (List.dropWhile_suffix _)
  have h2 : NoWSRun (l.dropWhile isWSChar).reverse := noWSRun_reverse h1
  have h3 : NoWSRun ((l.dropWhile isWSChar).reverse.dropWhile isWSChar) :=
    List.Chain'.suffix h2 (List.dropWhile_suffix _)
  exact noWSRun_reverse h3

theorem mem_apply_regex {x : Char} {l : List Char} (h : x ∈ apply_regex l) :
    x = ' ' ∨ (x ∈ l ∧ keepChar x = true) := by
  unfold apply_regex collapseWS at h
  have h2 := mem_pyStrip h
  rcases mem_collapseGo false _ h2 with h3 | h3
  · exact Or.inl h3
  · exact Or.inr ⟨List.mem_of_mem_filter h3.1, List.of_mem_filter h3.1⟩

theorem WSok_apply_regex (l : List Char) : WSok (apply_regex l) := by
  intro x hx hws
  unfold apply_regex collapseWS at hx
  have h2 := mem_pyStrip hx
  rcases mem_collapseGo false _ h2 with h3 | h3
  · exact h3
  · exact absurd hws (by simp [h3.2])

theorem noWSRun_apply_regex (l : List Char) : NoWSRun (apply_regex l) :=
  noWSRun_pyStrip (noWSRun_collapseGo false _)

theorem headIsWS_apply_regex (l : List Char) :
    headIsWS (apply_regex l) = false :=
  headIsWS_pyStrip _

theorem headIsWS_apply_regex_reverse (l : List Char) :
    headIsWS (apply_regex l).reverse = false :=
  headIsWS_pyStrip_reverse _

/-- C7: the text normalizer apply_regex is idempotent. -/
theorem c7_normalize_idem (t : List Char) :
    apply_regex (apply_regex t) = apply_regex t := by
  have hmem : ∀ x ∈ apply_regex t, keepChar x = true := by
    intro x hx
    rcases mem_apply_regex hx with h | h
    · rw [h]; decide
    · exact h.2
  have hfilter : (apply_regex t).filter keepChar = apply_regex t :=
    List.filter_eq_self.mpr hmem
  have hcollapse : collapseGo false (apply_regex t) = apply_regex t :=
    collapseGo_fix _ false (WSok_apply_regex t) (noWSRun_apply_regex t)
      (Or.inl rfl)
  show pyStrip (collapseWS ((apply_regex t).filter keepChar)) = apply_regex t
  rw [hfilter]
  show pyStrip (collapseGo false (apply_regex t)) = _
  rw [hcollapse]
  exact pyStrip_fix (headIsWS_apply_regex t) (headIsWS_apply_regex_reverse t)

/-! Machinery for the cleaned-output invariants: lowercasing produces no
uppercase letters, the scan only emits lowered input characters and
table values, and a non-empty table never raises. -/

theorem char_toNat_ofNat {n : Nat} (h : n < 55296) :
    (Char.ofNat n).toNat = n := by
  unfold Char.ofNat
  rw [dif_pos (Or.inl h)]
  rfl

theorem isUpperA_pyToLower (c : Char) : isUpperA (pyToLower c) = false := by
  unfold pyToLower
  by_cases h : 65 ≤ c.toNat ∧ c.toNat ≤ 90
  · rw [if_pos h]
    have hval : (Char.ofNat (c.toNat + 32)).toNat = c.toNat + 32 :=
      char_toNat_ofNat (by omega)
    unfold isUpperA
    rw [← Bool.not_eq_true]
    simp only [Bool.and_eq_true, decide_eq_true_eq, hval]
    omega
  · rw [if_neg h]
    unfold isUpperA
    rw [← Bool.not_eq_true]
    simp only [Bool.and_eq_true, decide_eq_true_eq]
    exact h

theorem isUpperA_pyLower {x : Char} {l : List Char} (h : x ∈ pyLower l) :
    isUpperA x = false := by
  unfold pyLower at h
  obtain ⟨y, -, rfl⟩ := List.mem_map.mp h
  exact isUpperA_pyToLower y

theorem dictInsert_mem {t : Table} {k v : List Char} {kv : List Char × List Char} :
    kv ∈ dictInsert t k v → kv ∈ t ∨ kv = (k, v) := by
  induction t with
  | nil =>
    intro h
    simp [dictInsert] at h
    exact Or.inr h
  | cons hd tl ih =>
    obtain ⟨k', v'⟩ := hd
    intro h
    by_cases h2 : k' = k
    · simp only [dictInsert, if_pos h2] at h
      rcases List.mem_cons.mp h with h3 | h3
      · exact Or.inr (by rw [h3, h2])
      · exact Or.inl (List.mem_cons_of_mem _ h3)
    · simp only [dictInsert, if_neg h2] at h
      rcases List.mem_cons.mp h with h3 | h3
      · exact Or.inl (h3 ▸ List.mem_cons_self _ _)
      · rcases ih h3 with h4 | h4
        · exact Or.inl (List.mem_cons_of_mem _ h4)
        · exact Or.inr h4

theorem values_load_noUpper (rows : List (List Char × List Char)) :
    ∀ kv ∈ load_replacements rows, ∀ x ∈ kv.2, isUpperA x = false := by
  unfold load_replacements
  suffices hgen : ∀ (t : Table), (∀ kv ∈ t, ∀ x ∈ kv.2, isUpperA x = false) →
      ∀ kv ∈ rows.foldl (fun t r => dictInsert t (normField r.1) (normField r.2)) t,
      ∀ x ∈ kv.2, isUpperA x = false by
    exact hgen [] (by simp)
  induction rows with
  | nil => intro t ht kv hkv; exact ht kv hkv
  | cons r rs ih =>
    intro t ht
    rw [List.foldl_cons]
    apply ih
    intro kv hkv x hx
    rcases dictInsert_mem hkv with h | h
    · exact ht kv h x hx
    · subst h
      exact isUpperA_pyLower hx

theorem scanSub_ne_none {alts : List (List Char)} {t : Table}
    (halts : ∀ k ∈ alts, ∃ v, lookupTable t k = some v) :
    ∀ (rest : List Char) (p : Bool) (s : Nat) (cnt : Counter),
    scanSub alts t p s cnt rest ≠ none := by
  intro rest
  induction rest with
  | nil =>
    intro p s cnt
    cases s with
    | zero =>
      cases hm : findMatch alts p [] with
      | none => simp [scanSub, hm]
      | some k =>
        obtain ⟨v, hv⟩ := halts k (findMatch_some hm).2.2
        simp [scanSub, hm, hv]
    | succ s => simp [scanSub]
  | cons c rs ih =>
    intro p s cnt
    cases s with
    | succ s => exact ih (isWordChar c) s cnt
    | zero =>
      cases hm : findMatch alts p (c :: rs) with
      | none =>
        simp only [scanSub, hm]
        intro hcontra
        exact ih _ _ _ (Option.map_eq_none'.mp hcontra)
      | some k =>
        obtain ⟨v, hv⟩ := halts k (findMatch_some hm).2.2
        cases k with
        | nil =>
          simp only [scanSub, hm, hv]
          intro hcontra
          exact ih _ _ _ (Option.map_eq_none'.mp hcontra)
        | cons kh ktl =>
          simp only [scanSub, hm, hv]
          intro hcontra
          exact ih _ _ _ (Option.map_eq_none'.mp hcontra)

theorem scanSub_out_mem {alts : List (List Char)} {t : Table} :
    ∀ (rest : List Char) (p : Bool) (s : Nat) (cnt : Counter) (out : List Char)
      (ct : Counter), scanSub alts t p s cnt rest = some (out, ct) →
    ∀ x ∈ out, x ∈ rest ∨ ∃ kv, kv ∈ t ∧ x ∈ kv.2 := by
  intro rest
  induction rest with
  | nil =>
    intro p s cnt out ct hs x hx
    cases s with
    | succ s =>
      simp [scanSub] at hs
      obtain ⟨h1, -⟩ := hs
      subst h1
      simp at hx
    | zero =>
      cases hm : findMatch alts p [] with
      | none =>
        simp [scanSub, hm] at hs
        obtain ⟨h1, -⟩ := hs
        subst h1
        simp at hx
      | some k =>
        cases hv : lookupTable t k with
        | none => simp [scanSub, hm, hv] at hs
        | some v =>
          simp [scanSub, hm, hv] at hs
          obtain ⟨h1, -⟩ := hs
          subst h1
          exact Or.inr ⟨(k, v), mem_of_lookupTable_some hv, hx⟩
  | cons c rs ih =>
    intro p s cnt out ct hs x hx
    cases s with
    | succ s =>
      rcases ih (isWordChar c) s cnt out ct hs x hx with h | h
      · exact Or.inl (List.mem_cons_of_mem _ h)
      · exact Or.inr h
    | zero =>
      cases hm : findMatch alts p (c :: rs) with
      | none =>
        simp only [scanSub, hm] at hs
        obtain ⟨⟨out', ct'⟩, hin, heq⟩ := Option.map_eq_some'.mp hs
        obtain ⟨rfl, -⟩ : c :: out' = out ∧ ct' = ct :=
          Prod.mk.injEq .. ▸ Prod.mk.inj heq
        rcases List.mem_cons.mp hx with h | h
        · exact Or.inl (h ▸ List.mem_cons_self _ _)
        · rcases ih (isWordChar c) 0 cnt out' ct' hin x h with h2 | h2
          · exact Or.inl (List.mem_cons_of_mem _ h2)
          · exact Or.inr h2
      | some k =>
        cases hv : lookupTable t k with
        | none => simp [scanSub, hm, hv] at hs
        | some v =>
          have hkv : (k, v) ∈ t := mem_of_lookupTable_some hv
          cases k with
          | nil =>
            simp only [scanSub, hm, hv] at hs
            obtain ⟨⟨out', ct'⟩, hin, heq⟩ := Option.map_eq_some'.mp hs
            obtain ⟨rfl, -⟩ : v ++ c :: out' = out ∧ ct' = ct :=
              Prod.mk.injEq .. ▸ Prod.mk.inj heq
            rcases List.mem_append.mp hx with h | h
            · exact Or.inr ⟨([], v), hkv, h⟩
            · rcases List.mem_cons.mp h with h2 | h2
              · exact Or.inl (h2 ▸ List.mem_cons_self _ _)
              · rcases ih (isWordChar c) 0 (incr cnt []) out' ct' hin x h2 with h3 | h3
                · exact Or.inl (List.mem_cons_of_mem _ h3)
                · exact Or.inr h3
          | cons kh ktl =>
            simp only [scanSub, hm, hv] at hs
            obtain ⟨⟨out', ct'⟩, hin, heq⟩ := Option.map_eq_some'.mp hs
            obtain ⟨rfl, -⟩ : v ++ out' = out ∧ ct' = ct :=
              Prod.mk.injEq .. ▸ Prod.mk.inj heq
            rcases List.mem_append.mp hx with h | h
            · exact Or.inr ⟨(kh :: ktl, v), hkv, h⟩
            · rcases ih (isWordChar c) ktl.length (incr cnt (kh :: ktl)) out' ct'
                hin x h with h2 | h2
              · exact Or.inl (List.mem_cons_of_mem _ h2)
              · exact Or.inr h2

theorem noSpaceRun_of_noWSRun : ∀ {l : List Char}, NoWSRun l →
    noSpaceRun l = true := by
  intro l
  induction l with
  | nil => intro _; rfl
  | cons a t ih =>
    intro h
    cases t with
    | nil => rfl
    | cons b t' =>
      have h1 := (List.chain'_cons.mp h).1
      have h2 := ih (List.chain'_cons.mp h).2
      show (!(a == ' ' && b == ' ') && noSpaceRun (b :: t')) = true
      rw [h2, Bool.and_true]
      cases hab : (a == ' ' && b == ' ') with
      | false => rfl
      | true =>
        rw [Bool.and_eq_true] at hab
        have ha : a = ' ' := by simpa using hab.1
        have hb : b = ' ' := by simpa using hab.2
        exact absurd ⟨by rw [ha]; decide, by rw [hb]; decide⟩ h1

/-- C10: for every dictionary compiled from rows that is non-empty and
every input text, bulk_replace succeeds and the cleaned output (the
normalized replaced text) contains only allowed characters (word
characters, space, comma, forward slash) with no uppercase ASCII letter,
has no leading or trailing whitespace, and has no run of two or more
consecutive spaces. -/
theorem c10_output_invariants (rows : List (List Char × List Char))
    (text : List Char) (cnt : Counter)
    (hne : load_replacements rows ≠ []) :
    ∃ out ct, bulk_replace text (load_replacements rows) cnt = some (out, ct) ∧
      (∀ x ∈ apply_regex out, allowedOut x = true ∧ isUpperA x = false) ∧
      headIsWS (apply_regex out) = false ∧
      headIsWS (apply_regex out).reverse = false ∧
      noSpaceRun (apply_regex out) = true := by
  have halts : ∀ k ∈ patternAlts (load_replacements rows),
      ∃ v, lookupTable (load_replacements rows) k = some v := by
    intro k hk
    rw [patternAlts_of_ne hne] at hk
    exact lookupTable_of_mem_keys hk
  have hnn := scanSub_ne_none halts (pyLower text) false 0 cnt
  obtain ⟨⟨out, ct⟩, hs⟩ := Option.ne_none_iff_exists'.mp hnn
  refine ⟨out, ct, hs, ?_, headIsWS_apply_regex out,
    headIsWS_apply_regex_reverse out, noSpaceRun_of_noWSRun (noWSRun_apply_regex out)⟩
  have hout : ∀ x ∈ out, isUpperA x = false := by
    intro x hx
    rcases scanSub_out_mem (pyLower text) false 0 cnt out ct hs x hx with h | h
    · exact isUpperA_pyLower h
    · obtain ⟨kv, hkv, hxv⟩ := h
      exact values_load_noUpper rows kv hkv x hxv
  intro x hx
  constructor
  · rcases mem_apply_regex hx with h | h
    · rw [h]; decide
    · cases hws : isWSChar x with
      | true =>
        rw [WSok_apply_regex out x hx hws]
        decide
      | false =>
        have hk := h.2
        unfold keepChar at hk
        unfold allowedOut
        rcases Bool.or_eq_true_iff.mp hk with hk2 | hk2
        · rcases Bool.or_eq_true_iff.mp hk2 with hk3 | hk3
          · rcases Bool.or_eq_true_iff.mp hk3 with hk4 | hk4
            · simp [hk4]
            · exact absurd hk4 (by simp [hws])
          · simp [hk3]
        · simp [hk2]
  · rcases mem_apply_regex hx with h | h
    · rw [h]; decide
    · exact hout x h.1

/-- C10 witness: the invariants theorem applied to a one-row dictionary
(with fields needing trimming and lowercasing) and a concrete note. -/
theorem c10_output_invariants_witness :
    ∃ out ct, bulk_replace "Pt HR!!  ok".toList
        (load_replacements [("HR ".toList, " Heart Rate".toList)]) [] =
        some (out, ct) ∧
      (∀ x ∈ apply_regex out, allowedOut x = true ∧ isUpperA x = false) ∧
      headIsWS (apply_regex out) = false ∧
      headIsWS (apply_regex out).reverse = false ∧
      noSpaceRun (apply_regex out) = true :=
  c10_output_invariants [("HR ".toList, " Heart Rate".toList)]
    "Pt HR!!  ok".toList [] (by decide)

end MedClean
